import Mathlib

set_option maxRecDepth 8000
set_option linter.unusedVariables false

/-!
Verification of the streamdown-rs code-block rendering engine
(`crates/streamdown-render/src/code.rs`) and its color resolution
(`crates/streamdown-render/src/colors.rs`).

Rust strings are modelled as lists of codepoints (`List Char`): the source
performs all wrapping, indentation detection and label padding over
`chars()` iterators and codepoint counts, never over byte offsets, so a
codepoint-sequence model is exact for every property considered here.
ANSI escape sequences (colors, reset) have zero display width on a
terminal; rendered rows are therefore modelled by their visible codepoint
content only.
-/

/-- Unicode White_Space property: the predicate behind Rust's
`char::is_whitespace`, which `code_wrap` uses for indent detection and
which `trim_start`/`trim` use for trimming. The listed codepoints are
exactly the members of White_Space. -/
def isWhitespace (c : Char) : Bool :=
  let n := c.toNat
  n == 0x20 || decide (0x09 ≤ n ∧ n ≤ 0x0D) || n == 0x85 || n == 0xA0 ||
  n == 0x1680 || decide (0x2000 ≤ n ∧ n ≤ 0x200A) || n == 0x2028 ||
  n == 0x2029 || n == 0x202F || n == 0x205F || n == 0x3000

/-- Model of Rust `l.trim().is_empty()`: a line is whitespace-only when
every codepoint is whitespace. -/
def wsOnly (l : List Char) : Bool :=
  l.all isWhitespace

/-- Fuel-driven model of the chunking loop in `code_wrap`
(`while start < chars.len() { let end = (start + effective_width).min(chars.len()); ... }`).
The Rust loop consumes `effective_width ≥ 1` codepoints per iteration, so
`fuel = l.length` iterations always suffice; the fuel only makes the
recursion structural. -/
def chunkGo (e : Nat) : Nat → List Char → List (List Char)
  | 0, _ => []
  | _ + 1, [] => []
  | fuel + 1, c :: cs => ((c :: cs).take e) :: chunkGo e fuel ((c :: cs).drop e)

/-- The chunking loop of `code_wrap`: split a codepoint list into
consecutive runs of `e` codepoints (the last run may be shorter). -/
def chunkList (e : Nat) (l : List Char) : List (List Char) :=
  chunkGo e l.length l

/-- Model of the trailing cleanup loop in `code_wrap`:
`while lines.last().map(|l| l.trim().is_empty()).unwrap_or(false) { lines.pop(); }`
pops whitespace-only lines from the end, i.e. drops the longest
whitespace-only suffix. -/
def dropTrailingWs (ls : List (List Char)) : List (List Char) :=
  (ls.reverse.dropWhile wsOnly).reverse

/-- Translation of `code_wrap(text, width, pretty_broken)` from
`crates/streamdown-render/src/code.rs`. Returns the detected indent and
the wrapped lines. `width - 4 - indent` uses Nat subtraction, which is
exactly Rust's `saturating_sub`. -/
def code_wrap (text : List Char) (width : Nat) (pretty_broken : Bool) :
    Nat × List (List Char) :=
  if text = [] then (0, [[]])
  else if pretty_broken = false then (0, [text])
  else
    let indent := (text.takeWhile isWhitespace).length
    let content := text.dropWhile isWhitespace
    if content = [] then (indent, [text])
    else
      let effective_width := width - 4 - indent
      let content_char_count := content.length
      if effective_width = 0 ∨ content_char_count ≤ effective_width then
        (indent, [text])
      else
        let lines0 := chunkList effective_width content
        let lines1 :=
          match lines0 with
          | [] => []
          | c :: cs => (List.replicate indent ' ' ++ c) :: cs
        let lines2 := dropTrailingWs lines1
        if lines2 = [] then (indent, [text]) else (indent, lines2)

/-- Modelled from the spec: the terminal display-width metric provided by
the external `unicode_width` crate (not part of this repository). Per the
spec's glossary, East-Asian wide and fullwidth characters occupy two
terminal columns and other characters one. -/
def charWidth (c : Char) : Nat :=
  let n := c.toNat
  if decide ((0x1100 ≤ n ∧ n ≤ 0x115F) ∨ (0x2E80 ≤ n ∧ n ≤ 0x9FFF) ∨
      (0xA000 ≤ n ∧ n ≤ 0xA4CF) ∨ (0xAC00 ≤ n ∧ n ≤ 0xD7A3) ∨
      (0xF900 ≤ n ∧ n ≤ 0xFAFF) ∨ (0xFE30 ≤ n ∧ n ≤ 0xFE4F) ∨
      (0xFF00 ≤ n ∧ n ≤ 0xFF60) ∨ (0xFFE0 ≤ n ∧ n ≤ 0xFFE6) ∨
      (0x1F300 ≤ n ∧ n ≤ 0x1F64F) ∨ (0x20000 ≤ n ∧ n ≤ 0x3FFFD)) then 2
  else 1

/-- Display width of a codepoint sequence: the sum of the per-codepoint
terminal column widths (`unicode_width::UnicodeWidthStr::width`). -/
def displayWidth (l : List Char) : Nat :=
  (l.map charWidth).sum

/-- Modelled from the spec: the style configuration consumed by the
renderer (`RenderStyle` lives in `crates/streamdown-render/src/lib.rs`,
which is not under `src/`). Per spec section 6 it carries the `dark`,
`grey` and `symbol` colors and the `pretty_pad` / `pretty_broken` flags. -/
structure RenderStyle where
  dark : String
  grey : String
  symbol : String
  pretty_pad : Bool
  pretty_broken : Bool

/-- A concrete style value used for instantiating theorems. -/
def styleDefault : RenderStyle :=
  ⟨"black", "grey", "yellow", true, false⟩

/-- Translation of the `COLODORE` palette table from
`crates/streamdown-render/src/colors.rs`. The Rust `HashMap` with sixteen
distinct keys is modelled as an association list in insertion order. -/
def COLODORE : List (String × String) :=
  [("black", "#000000"), ("dark_grey", "#4a4a4a"), ("grey", "#7b7b7b"),
   ("light_grey", "#b2b2b2"), ("white", "#ffffff"), ("dark_red", "#813338"),
   ("red", "#c46c71"), ("brown", "#553800"), ("orange", "#8e5029"),
   ("yellow", "#edf171"), ("light_green", "#a9ff9f"), ("green", "#56ac4d"),
   ("cyan", "#75cec8"), ("light_blue", "#706deb"), ("blue", "#2e2c9b"),
   ("purple", "#8e3c97")]

/-- Association-list lookup, the model of `HashMap::get` on a table with
distinct keys. -/
def lookupColor (k : String) : List (String × String) → Option String
  | [] => none
  | (a, b) :: rest => if k = a then some b else lookupColor k rest

/-- Translation of `resolve_color` from
`crates/streamdown-render/src/colors.rs`: palette lookup with passthrough
for strings not in the table. -/
def resolve_color (color : String) : String :=
  match lookupColor color COLODORE with
  | some v => v
  | none => color

/-- Translation of the `CodeBlockState` struct from
`crates/streamdown-render/src/code.rs`. The `highlighter` reference and
the opaque `HighlightState` are an external capability; only the presence
of a highlight state is modelled (`highlight_active`). -/
structure CodeBlockState where
  language : Option (List Char)
  background : String
  pretty_pad : Bool
  pretty_broken : Bool
  indent : Nat
  raw_buffer : List Char
  highlight_active : Bool

/-- Translation of `CodeBlockState::new`. -/
def CodeBlockState.new : CodeBlockState :=
  { language := none, background := "", pretty_pad := true,
    pretty_broken := false, indent := 0, raw_buffer := [],
    highlight_active := false }

/-- Translation of `CodeBlockState::start`: records the language, resolves
the background from the style's `dark` color, clears the raw buffer and
requests a fresh highlight state. `bg_color` (not under `src/`) wraps the
resolved color in an ANSI escape; the model stores the resolved color. -/
def CodeBlockState.start (s : CodeBlockState) (language : Option (List Char))
    (style : RenderStyle) : CodeBlockState :=
  { s with
    language := language
    background := resolve_color style.dark
    raw_buffer := []
    highlight_active := true }

/-- Translation of `CodeBlockState::add_raw_line`: pushes a newline
separator only when the buffer is non-empty, then appends the line. -/
def CodeBlockState.add_raw_line (s : CodeBlockState) (line : List Char) :
    CodeBlockState :=
  if s.raw_buffer = [] then { s with raw_buffer := line }
  else { s with raw_buffer := s.raw_buffer ++ '\n' :: line }

/-- Translation of `CodeBlockState::raw_code`. -/
def CodeBlockState.raw_code (s : CodeBlockState) : List Char :=
  s.raw_buffer

/-- Newline-joined concatenation of a list of lines (the reading of
"l1\n...\nln" used by the raw-accumulation property). -/
def joinNl : List (List Char) → List Char
  | [] => []
  | [l] => l
  | l :: l2 :: rest => l ++ '\n' :: joinNl (l2 :: rest)

/-- Concatenation of lines, each preceded by a newline separator: the
shape `add_raw_line` appends once the buffer is non-empty. -/
def tailNl : List (List Char) → List Char
  | [] => []
  | l :: rest => '\n' :: (l ++ tailNl rest)

/-- Translation of `render_code_start` from
`crates/streamdown-render/src/code.rs`, modelling each output row by its
visible codepoints. Modelled from the spec: the ANSI color and reset
escapes produced by `bg_color` / `fg_color` / `RESET` (all outside
`src/`) occupy zero terminal columns, so they contribute nothing to a
row's visible content; `unicode_width` is the display-width model
`displayWidth`. -/
def render_code_start (language : Option (List Char)) (width : Nat)
    (left_margin : List Char) (style : RenderStyle) (pretty_pad : Bool) :
    List (List Char) :=
  let border :=
    if pretty_pad then left_margin ++ List.replicate width '▄'
    else left_margin ++ List.replicate width ' '
  match language with
  | some lang =>
      if lang ≠ [] ∧ lang ≠ "text".toList then
        let lang_width := displayWidth lang
        let padding := width - (lang_width + 2)
        [border,
         left_margin ++ '[' :: (lang ++ ']' :: List.replicate padding ' ')]
      else [border]
  | none => [border]

/-- Translation of `render_code_line` from
`crates/streamdown-render/src/code.rs`, modelling each output row by its
visible codepoints. Modelled from the spec: the highlighter capability
(external) converts a raw line into a styled line by inserting zero-width
ANSI escapes only, so on visible content it is the identity; and
`streamdown_ansi::utils::visible_length` (not under `src/`) measures the
display width of the escape-stripped text, modelled by `displayWidth`. -/
def render_code_line (line : List Char) (width : Nat)
    (left_margin : List Char) (pretty_broken : Bool) : List (List Char) :=
  let p := code_wrap line width pretty_broken
  let indent := p.1
  let wrapped := p.2
  let result := wrapped.enum.map (fun ic =>
    let highlighted := ic.2
    let line_indent := if ic.1 = 0 then 0 else indent
    let visible_len := displayWidth highlighted + line_indent
    let padding := width - visible_len
    left_margin ++ List.replicate line_indent ' ' ++ highlighted ++
      List.replicate padding ' ')
  if result = [] then [left_margin ++ List.replicate width ' '] else result

/-! ## Basic lemmas about the helper definitions -/

theorem displayWidth_nil : displayWidth [] = 0 := rfl

theorem displayWidth_cons (c : Char) (l : List Char) :
    displayWidth (c :: l) = charWidth c + displayWidth l := by
  simp [displayWidth]

theorem displayWidth_append (l m : List Char) :
    displayWidth (l ++ m) = displayWidth l + displayWidth m := by
  simp [displayWidth]

theorem displayWidth_replicate_space (n : Nat) :
    displayWidth (List.replicate n ' ') = n := by
  induction n with
  | zero => rfl
  | succ k ih =>
      have h : charWidth ' ' = 1 := by decide
      rw [List.replicate_succ, displayWidth_cons, ih, h]
      omega

theorem lookupColor_mem {l : List (String × String)} {k v : String}
    (h : lookupColor k l = some v) : (k, v) ∈ l := by
  induction l with
  | nil => simp [lookupColor] at h
  | cons p rest ih =>
      obtain ⟨a, b⟩ := p
      rw [lookupColor] at h
      by_cases hk : k = a
      · rw [if_pos hk] at h
        obtain rfl := Option.some.inj h
        exact hk ▸ List.mem_cons_self _ _
      · rw [if_neg hk] at h
        exact List.mem_cons_of_mem _ (ih h)

/-- Every value stored in the palette table fails to be a key of the
table (all values start with a hash mark; no key does). -/
theorem colodore_values_not_keys :
    ∀ p ∈ COLODORE, lookupColor p.2 COLODORE = none := by
  decide

/-! ## C9 and C10: color resolution -/

/-- C9: `resolve_color` maps each of the sixteen fixed palette names to
its hex value (in particular yellow to #edf171) and returns every string
not present in the palette unchanged, including #abcdef and
not_a_color. -/
theorem resolve_color_palette_and_passthrough :
    resolve_color "yellow" = "#edf171" ∧
    COLODORE.length = 16 ∧
    (∀ p ∈ COLODORE, resolve_color p.1 = p.2) ∧
    resolve_color "#abcdef" = "#abcdef" ∧
    resolve_color "not_a_color" = "not_a_color" ∧
    (∀ s : String, lookupColor s COLODORE = none → resolve_color s = s) := by
  refine ⟨by decide, by decide, by decide, by decide, by decide, ?_⟩
  intro s h
  simp [resolve_color, h]

/-- Witness for C9 at the concrete palette entry black and the concrete
absent string zzz. -/
theorem resolve_color_palette_witness :
    resolve_color "black" = "#000000" ∧ resolve_color "zzz" = "zzz" :=
  ⟨resolve_color_palette_and_passthrough.2.2.1 ("black", "#000000") (by decide),
   resolve_color_palette_and_passthrough.2.2.2.2.2 "zzz" (by decide)⟩

/-- C10: `resolve_color` is idempotent: resolved palette values start with
a hash mark, which is never a palette key, so a second resolution passes
the value through unchanged. -/
theorem resolve_color_idempotent (s : String) :
    resolve_color (resolve_color s) = resolve_color s := by
  rcases h : lookupColor s COLODORE with _ | v
  · simp [resolve_color, h]
  · have hv := colodore_values_not_keys (s, v) (lookupColor_mem h)
    simp [resolve_color, h, hv]

/-! ## Lemmas about the chunking loop -/

theorem chunkGo_nil (e : Nat) : ∀ fuel, chunkGo e fuel [] = [] := by
  intro fuel
  cases fuel <;> rfl

theorem chunkGo_fuel_eq (e : Nat) (he : 0 < e) :
    ∀ f1 f2 (l : List Char), l.length ≤ f1 → l.length ≤ f2 →
      chunkGo e f1 l = chunkGo e f2 l := by
  intro f1
  induction f1 with
  | zero =>
      intro f2 l h1 _
      have hl : l = [] := List.eq_nil_of_length_eq_zero (Nat.le_zero.mp h1)
      subst hl
      rw [chunkGo_nil, chunkGo_nil]
  | succ f ih =>
      intro f2 l h1 h2
      cases l with
      | nil => rw [chunkGo_nil, chunkGo_nil]
      | cons c cs =>
          cases f2 with
          | zero => simp at h2
          | succ g =>
              show ((c :: cs).take e) :: chunkGo e f ((c :: cs).drop e) =
                ((c :: cs).take e) :: chunkGo e g ((c :: cs).drop e)
              congr 1
              apply ih
              · rw [List.length_drop]
                simp only [List.length_cons] at h1 ⊢
                omega
              · rw [List.length_drop]
                simp only [List.length_cons] at h2 ⊢
                omega

theorem chunkList_cons_of (e : Nat) (he : 0 < e) (l : List Char)
    (hl : l ≠ []) :
    chunkList e l = l.take e :: chunkList e (l.drop e) := by
  cases l with
  | nil => exact absurd rfl hl
  | cons c cs =>
      have h0 : chunkList e (c :: cs) =
          ((c :: cs).take e) :: chunkGo e cs.length ((c :: cs).drop e) := rfl
      rw [h0]
      congr 1
      apply chunkGo_fuel_eq e he
      · rw [List.length_drop]
        simp only [List.length_cons]
        omega
      · exact Nat.le_refl _

theorem chunkGo_join (e : Nat) (he : 0 < e) :
    ∀ fuel (l : List Char), l.length ≤ fuel →
      (chunkGo e fuel l).flatten = l := by
  intro fuel
  induction fuel with
  | zero =>
      intro l h1
      have hl : l = [] := List.eq_nil_of_length_eq_zero (Nat.le_zero.mp h1)
      subst hl
      rfl
  | succ f ih =>
      intro l h1
      cases l with
      | nil => rfl
      | cons c cs =>
          show (((c :: cs).take e) :: chunkGo e f ((c :: cs).drop e)).flatten =
            c :: cs
          rw [List.flatten_cons, ih _ (by rw [List.length_drop]; simp only [List.length_cons] at h1 ⊢; omega)]
          exact List.take_append_drop e (c :: cs)

theorem chunkGo_mem_len (e : Nat) (he : 0 < e) :
    ∀ fuel (l : List Char), l.length ≤ fuel →
      ∀ c ∈ chunkGo e fuel l, 0 < c.length ∧ c.length ≤ e := by
  intro fuel
  induction fuel with
  | zero =>
      intro l h1 c hc
      have hl : l = [] := List.eq_nil_of_length_eq_zero (Nat.le_zero.mp h1)
      subst hl
      simp [chunkGo] at hc
  | succ f ih =>
      intro l h1 c hc
      cases l with
      | nil => simp [chunkGo] at hc
      | cons a as =>
          rcases List.mem_cons.mp hc with h | h
          · subst h
            rw [List.length_take]
            constructor
            · simp only [List.length_cons]
              omega
            · exact Nat.min_le_left _ _
          · exact ih _ (by rw [List.length_drop]; simp only [List.length_cons] at h1 ⊢; omega) _ h

theorem chunkGo_dropLast_len (e : Nat) (he : 0 < e) :
    ∀ fuel (l : List Char), l.length ≤ fuel →
      ∀ c ∈ (chunkGo e fuel l).dropLast, c.length = e := by
  intro fuel
  induction fuel with
  | zero =>
      intro l h1 c hc
      have hl : l = [] := List.eq_nil_of_length_eq_zero (Nat.le_zero.mp h1)
      subst hl
      simp [chunkGo] at hc
  | succ f ih =>
      intro l h1 c hc
      cases l with
      | nil => simp [chunkGo] at hc
      | cons a as =>
          have hshape : chunkGo e (f + 1) (a :: as) =
              ((a :: as).take e) :: chunkGo e f ((a :: as).drop e) := rfl
          rw [hshape] at hc
          rcases hrest : chunkGo e f ((a :: as).drop e) with _ | ⟨r, rs⟩
          · rw [hrest] at hc
            simp at hc
          · rw [hrest] at hc
            rw [List.dropLast_cons₂] at hc
            rcases List.mem_cons.mp hc with h | h
            · subst h
              have hdne : (a :: as).drop e ≠ [] := by
                intro hd
                rw [hd, chunkGo_nil] at hrest
                exact List.noConfusion hrest
              have hlen : e < (a :: as).length := by
                by_contra hle
                push_neg at hle
                exact hdne (List.drop_eq_nil_of_le hle)
              rw [List.length_take]
              omega
            · rw [← hrest] at h
              exact ih _ (by rw [List.length_drop]; simp only [List.length_cons] at h1 ⊢; omega) _ h

theorem chunkGo_contig (e : Nat) :
    ∀ fuel (l : List Char), ∀ c ∈ chunkGo e fuel l,
      ∃ pre post, pre ++ c ++ post = l := by
  intro fuel
  induction fuel with
  | zero =>
      intro l c hc
      simp [chunkGo] at hc
  | succ f ih =>
      intro l c hc
      cases l with
      | nil => simp [chunkGo] at hc
      | cons a as =>
          rcases List.mem_cons.mp hc with h | h
          · subst h
            exact ⟨[], (a :: as).drop e, by
              rw [List.nil_append]
              exact List.take_append_drop e (a :: as)⟩
          · obtain ⟨pre, post, hpp⟩ := ih _ _ h
            exact ⟨(a :: as).take e ++ pre, post, by
              rw [List.append_assoc, List.append_assoc, ← List.append_assoc pre]
              rw [hpp]
              exact List.take_append_drop e (a :: as)⟩

/-! ## Lemmas about the trailing-whitespace cleanup loop -/

theorem dropWhile_first_false {α : Type} (p : α → Bool) :
    ∀ (l : List α) y ys, l.dropWhile p = y :: ys → p y = false := by
  intro l
  induction l with
  | nil =>
      intro y ys h
      simp [List.dropWhile] at h
  | cons a as ih =>
      intro y ys h
      rw [List.dropWhile_cons] at h
      by_cases hp : p a
      · rw [if_pos hp] at h
        exact ih _ _ h
      · rw [if_neg hp] at h
        obtain ⟨rfl, _⟩ := List.cons.inj h
        exact Bool.eq_false_iff.mpr hp

theorem mem_dropTrailingWs {s : List Char} {ls : List (List Char)}
    (h : s ∈ dropTrailingWs ls) : s ∈ ls := by
  unfold dropTrailingWs at h
  rw [List.mem_reverse] at h
  exact List.mem_reverse.mp ((List.dropWhile_sublist wsOnly).subset h)

theorem dropTrailingWs_ne_nil {ls : List (List Char)} {x : List Char}
    (hx : x ∈ ls) (hxw : wsOnly x = false) : dropTrailingWs ls ≠ [] := by
  unfold dropTrailingWs
  intro h
  have h2 : ls.reverse.dropWhile wsOnly = [] := by
    rcases hh : ls.reverse.dropWhile wsOnly with _ | ⟨z, zs⟩
    · rfl
    · rw [hh] at h
      simp at h
  have hall := List.dropWhile_eq_nil_iff.mp h2 x (List.mem_reverse.mpr hx)
  rw [hxw] at hall
  exact Bool.noConfusion hall

theorem dropTrailingWs_cons_of_not_ws {a : List Char} {as : List (List Char)}
    (ha : wsOnly a = false) :
    dropTrailingWs (a :: as) = a :: dropTrailingWs as := by
  unfold dropTrailingWs
  rw [List.reverse_cons, List.dropWhile_append]
  rcases hh : as.reverse.dropWhile wsOnly with _ | ⟨y, ys⟩
  · simp [List.dropWhile_cons, ha]
  · simp

theorem dropTrailingWs_getLast?_not_ws {ls : List (List Char)} {y : List Char}
    (h : (dropTrailingWs ls).getLast? = some y) : wsOnly y = false := by
  unfold dropTrailingWs at h
  rw [List.getLast?_reverse] at h
  rcases hh : ls.reverse.dropWhile wsOnly with _ | ⟨z, zs⟩
  · rw [hh] at h
    simp at h
  · rw [hh] at h
    simp only [List.head?_cons, Option.some.injEq] at h
    subst h
    exact dropWhile_first_false wsOnly _ _ _ hh

/-! ## Branch normalization lemmas for code_wrap -/

theorem content_head_not_ws {text : List Char} {y : Char} {ys : List Char}
    (h : text.dropWhile isWhitespace = y :: ys) : isWhitespace y = false :=
  dropWhile_first_false isWhitespace text y ys h

theorem first_seg_not_wsOnly {text : List Char} {e : Nat} (indent : Nat)
    (hcontent : text.dropWhile isWhitespace ≠ []) (he : 0 < e) :
    wsOnly (List.replicate indent ' ' ++
      (text.dropWhile isWhitespace).take e) = false := by
  rcases hcc : text.dropWhile isWhitespace with _ | ⟨y, ys⟩
  · exact absurd hcc hcontent
  · have hy : isWhitespace y = false := content_head_not_ws hcc
    cases e with
    | zero => exact absurd he (Nat.lt_irrefl 0)
    | succ k =>
        simp [List.take_succ_cons, wsOnly, hy]

theorem code_wrap_eq_of_split (text : List Char) (width : Nat)
    (hcontent : text.dropWhile isWhitespace ≠ [])
    (he : 0 < width - 4 - (text.takeWhile isWhitespace).length)
    (hn : width - 4 - (text.takeWhile isWhitespace).length <
      (text.dropWhile isWhitespace).length) :
    code_wrap text width true =
      ((text.takeWhile isWhitespace).length,
       dropTrailingWs
         ((List.replicate (text.takeWhile isWhitespace).length ' ' ++
             (text.dropWhile isWhitespace).take
               (width - 4 - (text.takeWhile isWhitespace).length)) ::
           chunkList (width - 4 - (text.takeWhile isWhitespace).length)
             ((text.dropWhile isWhitespace).drop
               (width - 4 - (text.takeWhile isWhitespace).length)))) := by
  have htext : text ≠ [] := by
    intro h
    apply hcontent
    rw [h]
    rfl
  have hcond : ¬(width - 4 - (text.takeWhile isWhitespace).length = 0 ∨
      (text.dropWhile isWhitespace).length ≤
        width - 4 - (text.takeWhile isWhitespace).length) := by
    omega
  have hchunk := chunkList_cons_of
    (width - 4 - (text.takeWhile isWhitespace).length) he
    (text.dropWhile isWhitespace) hcontent
  have hne2 : dropTrailingWs
      ((List.replicate (text.takeWhile isWhitespace).length ' ' ++
          (text.dropWhile isWhitespace).take
            (width - 4 - (text.takeWhile isWhitespace).length)) ::
        chunkList (width - 4 - (text.takeWhile isWhitespace).length)
          ((text.dropWhile isWhitespace).drop
            (width - 4 - (text.takeWhile isWhitespace).length))) ≠ [] :=
    dropTrailingWs_ne_nil (List.mem_cons_self _ _)
      (first_seg_not_wsOnly _ hcontent he)
  simp only [code_wrap, if_neg htext]
  rw [if_neg (by simp : ¬(true = false))]
  simp only [if_neg hcontent, if_neg hcond, hchunk, if_neg hne2]

theorem code_wrap_empty (width : Nat) (b : Bool) :
    code_wrap [] width b = (0, [[]]) := rfl

theorem code_wrap_eq_of_disabled (text : List Char) (width : Nat)
    (htext : text ≠ []) : code_wrap text width false = (0, [text]) := by
  simp [code_wrap, htext]

theorem code_wrap_eq_of_ws (text : List Char) (width : Nat)
    (htext : text ≠ []) (hc : text.dropWhile isWhitespace = []) :
    code_wrap text width true = ((text.takeWhile isWhitespace).length, [text]) := by
  simp only [code_wrap, if_neg htext]
  rw [if_neg (by simp : ¬(true = false))]
  simp only [if_pos hc]

theorem code_wrap_eq_of_fits (text : List Char) (width : Nat)
    (hcontent : text.dropWhile isWhitespace ≠ [])
    (hcond : width - 4 - (text.takeWhile isWhitespace).length = 0 ∨
      (text.dropWhile isWhitespace).length ≤
        width - 4 - (text.takeWhile isWhitespace).length) :
    code_wrap text width true = ((text.takeWhile isWhitespace).length, [text]) := by
  have htext : text ≠ [] := by
    intro h
    apply hcontent
    rw [h]
    rfl
  simp only [code_wrap, if_neg htext]
  rw [if_neg (by simp : ¬(true = false))]
  simp only [if_neg hcontent, if_pos hcond]

/-- Exhaustive case analysis of `code_wrap`: the result is the unmodified
line (as the single segment), the empty-line segment, or the chunked
split. -/
theorem code_wrap_total_cases (text : List Char) (width : Nat) (b : Bool) :
    (code_wrap text width b).2 = [text] ∨
    (text = [] ∧ (code_wrap text width b).2 = [[]]) ∨
    (b = true ∧ text.dropWhile isWhitespace ≠ [] ∧
      0 < width - 4 - (text.takeWhile isWhitespace).length ∧
      width - 4 - (text.takeWhile isWhitespace).length <
        (text.dropWhile isWhitespace).length ∧
      code_wrap text width b =
        ((text.takeWhile isWhitespace).length,
         dropTrailingWs
           ((List.replicate (text.takeWhile isWhitespace).length ' ' ++
               (text.dropWhile isWhitespace).take
                 (width - 4 - (text.takeWhile isWhitespace).length)) ::
             chunkList (width - 4 - (text.takeWhile isWhitespace).length)
               ((text.dropWhile isWhitespace).drop
                 (width - 4 - (text.takeWhile isWhitespace).length))))) := by
  by_cases htext : text = []
  · right
    left
    exact ⟨htext, by rw [htext]; rfl⟩
  cases b with
  | false =>
      left
      rw [code_wrap_eq_of_disabled text width htext]
  | true =>
      by_cases hc : text.dropWhile isWhitespace = []
      · left
        rw [code_wrap_eq_of_ws text width htext hc]
      · by_cases hcond : width - 4 - (text.takeWhile isWhitespace).length = 0 ∨
            (text.dropWhile isWhitespace).length ≤
              width - 4 - (text.takeWhile isWhitespace).length
        · left
          rw [code_wrap_eq_of_fits text width hc hcond]
        · right
          right
          refine ⟨rfl, hc, by omega, by omega, ?_⟩
          exact code_wrap_eq_of_split text width hc (by omega) (by omega)

/-! ## C5: indent counts codepoints -/

/-- C5: with wrapping enabled the indent returned by `code_wrap` is the
number of leading whitespace codepoints of the line (never a storage-unit
count); for two fullwidth spaces followed by text the indent is 2. -/
theorem code_wrap_indent_codepoints (text : List Char) (width : Nat) :
    (code_wrap text width true).1 = (text.takeWhile isWhitespace).length ∧
    (code_wrap ('　' :: '　' :: "code".toList) 80 true).1 = 2 := by
  refine ⟨?_, by decide⟩
  by_cases htext : text = []
  · rw [htext]
    rfl
  by_cases hc : text.dropWhile isWhitespace = []
  · rw [code_wrap_eq_of_ws text width htext hc]
  by_cases hcond : width - 4 - (text.takeWhile isWhitespace).length = 0 ∨
      (text.dropWhile isWhitespace).length ≤
        width - 4 - (text.takeWhile isWhitespace).length
  · rw [code_wrap_eq_of_fits text width hc hcond]
  · rw [code_wrap_eq_of_split text width hc (by omega) (by omega)]

/-! ## C1: effective width and the chunked split -/

/-- C1: with wrapping enabled and non-empty content, `code_wrap` uses the
effective width `width - 4 - indent` (saturating Nat subtraction): when it
is zero or the content fits, the single unmodified line is returned;
otherwise the content splits into consecutive runs of exactly
effective-width codepoints, only the final run shorter (the returned
segments being these runs after the indent prefix on the first and the
trailing-whitespace cleanup). -/
theorem code_wrap_effective_width_split (text : List Char) (width : Nat)
    (hcontent : text.dropWhile isWhitespace ≠ []) :
    ((width - 4 - (text.takeWhile isWhitespace).length = 0 ∨
      (text.dropWhile isWhitespace).length ≤
        width - 4 - (text.takeWhile isWhitespace).length) →
      code_wrap text width true =
        ((text.takeWhile isWhitespace).length, [text])) ∧
    (0 < width - 4 - (text.takeWhile isWhitespace).length →
     width - 4 - (text.takeWhile isWhitespace).length <
        (text.dropWhile isWhitespace).length →
      ∃ r rs,
        r :: rs = chunkList (width - 4 - (text.takeWhile isWhitespace).length)
          (text.dropWhile isWhitespace) ∧
        (r :: rs).flatten = text.dropWhile isWhitespace ∧
        (∀ c ∈ (r :: rs).dropLast,
          c.length = width - 4 - (text.takeWhile isWhitespace).length) ∧
        (∀ c ∈ r :: rs, 0 < c.length ∧
          c.length ≤ width - 4 - (text.takeWhile isWhitespace).length) ∧
        code_wrap text width true =
          ((text.takeWhile isWhitespace).length,
           dropTrailingWs
             ((List.replicate (text.takeWhile isWhitespace).length ' ' ++ r)
               :: rs))) := by
  constructor
  · intro hcond
    exact code_wrap_eq_of_fits text width hcontent hcond
  · intro he hn
    have hchunk := chunkList_cons_of
      (width - 4 - (text.takeWhile isWhitespace).length) he
      (text.dropWhile isWhitespace) hcontent
    refine ⟨(text.dropWhile isWhitespace).take
        (width - 4 - (text.takeWhile isWhitespace).length),
      chunkList (width - 4 - (text.takeWhile isWhitespace).length)
        ((text.dropWhile isWhitespace).drop
          (width - 4 - (text.takeWhile isWhitespace).length)),
      hchunk.symm, ?_, ?_, ?_, ?_⟩
    · rw [← hchunk]
      exact chunkGo_join _ he _ _ (Nat.le_refl _)
    · intro c hcmem
      rw [← hchunk] at hcmem
      exact chunkGo_dropLast_len _ he _ _ (Nat.le_refl _) c hcmem
    · intro c hcmem
      rw [← hchunk] at hcmem
      exact chunkGo_mem_len _ he _ _ (Nat.le_refl _) c hcmem
    · exact code_wrap_eq_of_split text width hcontent he hn

/-- Witness for C1: wrapping a 10-codepoint line at width 9 (effective
width 5) yields the two runs of 5 codepoints. -/
theorem code_wrap_effective_width_split_witness :
    code_wrap ("abcdefghij".toList) 9 true =
      (0, ["abcde".toList, "fghij".toList]) := by
  obtain ⟨r, rs, hchunk, _, _, _, heq⟩ :=
    (code_wrap_effective_width_split ("abcdefghij".toList) 9 (by decide)).2
      (by decide) (by decide)
  have hr : r :: rs = ["abcde".toList, "fghij".toList] := by
    rw [hchunk]
    decide
  obtain ⟨hr1, hr2⟩ := List.cons.inj hr
  rw [heq, hr1, hr2]
  decide

/-! ## C4: trailing whitespace-only segments are dropped, never all -/

/-- C4: `code_wrap` always returns at least one segment, and when a line
is actually split the last returned segment is never whitespace-only (the
trailing whitespace-only runs have been dropped). -/
theorem code_wrap_trailing_ws_dropped (text : List Char) (width : Nat)
    (b : Bool) :
    (code_wrap text width b).2 ≠ [] ∧
    (∀ y, text.dropWhile isWhitespace ≠ [] →
      0 < width - 4 - (text.takeWhile isWhitespace).length →
      width - 4 - (text.takeWhile isWhitespace).length <
        (text.dropWhile isWhitespace).length →
      (code_wrap text width true).2.getLast? = some y → wsOnly y = false) := by
  constructor
  · rcases code_wrap_total_cases text width b with h | ⟨_, h⟩ |
      ⟨_, hcontent, he, _, heq⟩
    · rw [h]
      exact List.cons_ne_nil _ _
    · rw [h]
      exact List.cons_ne_nil _ _
    · rw [congrArg Prod.snd heq]
      exact dropTrailingWs_ne_nil (List.mem_cons_self _ _)
        (first_seg_not_wsOnly _ hcontent he)
  · intro y hcontent he hn hlast
    rw [congrArg Prod.snd (code_wrap_eq_of_split text width hcontent he hn)]
      at hlast
    exact dropTrailingWs_getLast?_not_ws hlast

/-- Witness for C4: a line whose wrap produces a whitespace-only trailing
run; the returned segments end in a non-whitespace segment. -/
theorem code_wrap_trailing_ws_dropped_witness :
    ("ab".toList ++ List.replicate 8 ' ').dropWhile isWhitespace ≠ [] ∧
    wsOnly ("ab".toList) = false :=
  ⟨by decide,
   (code_wrap_trailing_ws_dropped ("ab".toList ++ List.replicate 8 ' ') 6
      true).2 ("ab".toList) (by decide) (by decide) (by decide) (by decide)⟩

/-! ## C2: indentation of the first split segment -/

/-- C2 counterexample: for a tab-indented line that gets split, the first
returned segment begins with an ASCII space substituted for the tab, so
it is not prefixed with the original indentation characters. -/
theorem code_wrap_indent_substitution_cex :
    (code_wrap ('\t' :: List.replicate 10 'b') 10 true).2.headI =
      ' ' :: List.replicate 5 'b' ∧
    ('\t' :: List.replicate 10 'b').takeWhile isWhitespace = ['\t'] ∧
    ∀ rest : List Char,
      (code_wrap ('\t' :: List.replicate 10 'b') 10 true).2.headI ≠
        '\t' :: rest := by
  refine ⟨by decide, by decide, ?_⟩
  intro rest h
  have h1 : (code_wrap ('\t' :: List.replicate 10 'b') 10 true).2.headI =
      ' ' :: List.replicate 5 'b' := by decide
  rw [h1] at h
  exact absurd (List.cons.inj h).1 (by decide)

/-- C2 amended: when a line is split, the first returned segment is
`indent` ASCII spaces followed by the first effective-width run of the
content — equal to the original indentation exactly when that indentation
consists of ASCII spaces — and the later segments are the raw runs
(modulo the trailing-whitespace cleanup), with nothing prepended. -/
theorem code_wrap_first_segment_space_indent (text : List Char) (width : Nat)
    (hcontent : text.dropWhile isWhitespace ≠ [])
    (he : 0 < width - 4 - (text.takeWhile isWhitespace).length)
    (hn : width - 4 - (text.takeWhile isWhitespace).length <
      (text.dropWhile isWhitespace).length) :
    (code_wrap text width true).2 =
      (List.replicate (text.takeWhile isWhitespace).length ' ' ++
          (text.dropWhile isWhitespace).take
            (width - 4 - (text.takeWhile isWhitespace).length)) ::
        dropTrailingWs
          (chunkList (width - 4 - (text.takeWhile isWhitespace).length)
            ((text.dropWhile isWhitespace).drop
              (width - 4 - (text.takeWhile isWhitespace).length))) ∧
    (text.takeWhile isWhitespace =
        List.replicate (text.takeWhile isWhitespace).length ' ' →
      (code_wrap text width true).2 =
        (text.takeWhile isWhitespace ++
            (text.dropWhile isWhitespace).take
              (width - 4 - (text.takeWhile isWhitespace).length)) ::
          dropTrailingWs
            (chunkList (width - 4 - (text.takeWhile isWhitespace).length)
              ((text.dropWhile isWhitespace).drop
                (width - 4 - (text.takeWhile isWhitespace).length)))) := by
  have hmain : (code_wrap text width true).2 =
      (List.replicate (text.takeWhile isWhitespace).length ' ' ++
          (text.dropWhile isWhitespace).take
            (width - 4 - (text.takeWhile isWhitespace).length)) ::
        dropTrailingWs
          (chunkList (width - 4 - (text.takeWhile isWhitespace).length)
            ((text.dropWhile isWhitespace).drop
              (width - 4 - (text.takeWhile isWhitespace).length))) := by
    rw [congrArg Prod.snd (code_wrap_eq_of_split text width hcontent he hn)]
    exact dropTrailingWs_cons_of_not_ws (first_seg_not_wsOnly _ hcontent he)
  refine ⟨hmain, fun hsp => ?_⟩
  rw [hmain]
  rw [← hsp]

/-- Witness for C2 amended: a space-indented line is split with its
original two-space indentation preserved on the first segment. -/
theorem code_wrap_first_segment_space_indent_witness :
    (code_wrap ("  abcdefghij".toList) 11 true).2 =
      (List.replicate 2 ' ' ++ "abcde".toList) ::
        dropTrailingWs (chunkList 5 ("fghij".toList)) := by
  have h := (code_wrap_first_segment_space_indent ("  abcdefghij".toList) 11
    (by decide) (by decide) (by decide)).1
  rw [h]
  decide

/-! ## C3: returned segments are built from whole codepoints -/

/-- C3 counterexample: a tab-indented split line has a first segment whose
substituted space prefix makes it not a contiguous subsequence of the
input. -/
theorem code_wrap_segment_not_contiguous_cex :
    ∃ s ∈ (code_wrap ('\t' :: List.replicate 10 'a') 10 true).2,
      ∀ pre post : List Char,
        pre ++ s ++ post ≠ '\t' :: List.replicate 10 'a' := by
  refine ⟨' ' :: List.replicate 5 'a', by decide, ?_⟩
  intro pre post h
  have hsp : ' ' ∈ '\t' :: List.replicate 10 'a' := by
    rw [← h]
    exact List.mem_append_left _
      (List.mem_append_right _ (List.mem_cons_self _ _))
  exact absurd hsp (by decide)

/-- C3 amended: every returned segment is made of whole codepoints of the
input — each segment is a contiguous subsequence of the input, except
that the first segment of a split line is `indent` ASCII spaces followed
by a contiguous subsequence; when the leading whitespace consists of
ASCII spaces, every segment is a contiguous subsequence of the input. -/
theorem code_wrap_segments_whole_codepoints (text : List Char) (width : Nat)
    (b : Bool) :
    (∀ s ∈ (code_wrap text width b).2,
        (∃ pre post, pre ++ s ++ post = text) ∨
        (∃ k rest, s = List.replicate k ' ' ++ rest ∧
          ∃ pre post, pre ++ rest ++ post = text)) ∧
    ((∀ c ∈ text.takeWhile isWhitespace, c = ' ') →
      ∀ s ∈ (code_wrap text width b).2,
        ∃ pre post, pre ++ s ++ post = text) := by
  have hsplitmem : ∀ s,
      (b = true ∧ text.dropWhile isWhitespace ≠ [] ∧
        0 < width - 4 - (text.takeWhile isWhitespace).length ∧
        width - 4 - (text.takeWhile isWhitespace).length <
          (text.dropWhile isWhitespace).length ∧
        code_wrap text width b =
          ((text.takeWhile isWhitespace).length,
           dropTrailingWs
             ((List.replicate (text.takeWhile isWhitespace).length ' ' ++
                 (text.dropWhile isWhitespace).take
                   (width - 4 - (text.takeWhile isWhitespace).length)) ::
               chunkList (width - 4 - (text.takeWhile isWhitespace).length)
                 ((text.dropWhile isWhitespace).drop
                   (width - 4 - (text.takeWhile isWhitespace).length))))) →
      s ∈ (code_wrap text width b).2 →
      s = List.replicate (text.takeWhile isWhitespace).length ' ' ++
          (text.dropWhile isWhitespace).take
            (width - 4 - (text.takeWhile isWhitespace).length) ∨
      ∃ pre post, pre ++ s ++ post =
        (text.dropWhile isWhitespace).drop
          (width - 4 - (text.takeWhile isWhitespace).length) := by
    intro s hcase hs
    obtain ⟨_, _, _, _, heq⟩ := hcase
    rw [congrArg Prod.snd heq] at hs
    rcases List.mem_cons.mp (mem_dropTrailingWs hs) with h | h
    · exact Or.inl h
    · exact Or.inr (chunkGo_contig _ _ _ s h)
  have htakedrop : text.takeWhile isWhitespace ++
      ((text.dropWhile isWhitespace).take
          (width - 4 - (text.takeWhile isWhitespace).length) ++
        (text.dropWhile isWhitespace).drop
          (width - 4 - (text.takeWhile isWhitespace).length)) = text := by
    rw [List.take_append_drop, List.takeWhile_append_dropWhile]
  constructor
  · intro s hs
    rcases code_wrap_total_cases text width b with h | ⟨ht, h⟩ | hcase
    · rw [h] at hs
      rcases List.mem_singleton.mp hs with rfl
      exact Or.inl ⟨[], [], by simp⟩
    · rw [h] at hs
      rcases List.mem_singleton.mp hs with rfl
      exact Or.inl ⟨[], [], by simp [ht]⟩
    · rcases hsplitmem s hcase hs with h | ⟨pre, post, hpp⟩
      · refine Or.inr ⟨(text.takeWhile isWhitespace).length,
          (text.dropWhile isWhitespace).take
            (width - 4 - (text.takeWhile isWhitespace).length), h,
          text.takeWhile isWhitespace,
          (text.dropWhile isWhitespace).drop
            (width - 4 - (text.takeWhile isWhitespace).length), ?_⟩
        rw [List.append_assoc]
        exact htakedrop
      · refine Or.inl ⟨text.takeWhile isWhitespace ++
          (text.dropWhile isWhitespace).take
            (width - 4 - (text.takeWhile isWhitespace).length) ++ pre,
          post, ?_⟩
        rw [List.append_assoc, List.append_assoc, ← List.append_assoc pre,
          hpp, List.append_assoc]
        exact htakedrop
  · intro hsp s hs
    rcases code_wrap_total_cases text width b with h | ⟨ht, h⟩ | hcase
    · rw [h] at hs
      rcases List.mem_singleton.mp hs with rfl
      exact ⟨[], [], by simp⟩
    · rw [h] at hs
      rcases List.mem_singleton.mp hs with rfl
      exact ⟨[], [], by simp [ht]⟩
    · have hrep : text.takeWhile isWhitespace =
          List.replicate (text.takeWhile isWhitespace).length ' ' :=
        List.eq_replicate_length.mpr hsp
      rcases hsplitmem s hcase hs with h | ⟨pre, post, hpp⟩
      · refine ⟨[], (text.dropWhile isWhitespace).drop
          (width - 4 - (text.takeWhile isWhitespace).length), ?_⟩
        rw [List.nil_append, h, ← hrep, List.append_assoc]
        exact htakedrop
      · refine ⟨text.takeWhile isWhitespace ++
          (text.dropWhile isWhitespace).take
            (width - 4 - (text.takeWhile isWhitespace).length) ++ pre,
          post, ?_⟩
        rw [List.append_assoc, List.append_assoc, ← List.append_assoc pre,
          hpp, List.append_assoc]
        exact htakedrop

/-- Witness for C3 amended: on an unsplit line the single segment is the
whole input, a contiguous subsequence. -/
theorem code_wrap_segments_whole_codepoints_witness :
    ∃ pre post : List Char, pre ++ "abc".toList ++ post = "abc".toList :=
  (code_wrap_segments_whole_codepoints ("abc".toList) 80 true).2
    (by decide) ("abc".toList) (by decide)

/-! ## C6: language label padding by display width -/

/-- C6 counterexample: at configured width 2 with language a, the label
row has display width 3, not the configured width (the saturating padding
cannot shrink the label). -/
theorem render_code_start_label_overflow_cex :
    render_code_start (some ['a']) 2 [] styleDefault false =
      [List.replicate 2 ' ', ['[', 'a', ']']] ∧
    displayWidth ['[', 'a', ']'] = 3 ∧ displayWidth ['[', 'a', ']'] ≠ 2 := by
  exact ⟨by decide, by decide, by decide⟩

/-- C6 amended: when a language is present, non-empty and not the text
sentinel, and the configured width is at least the label's display width
plus its two brackets, `render_code_start` emits exactly one label line
of the form [language] right-padded by display width, and the label row's
total display width equals the configured width, in both pretty and plain
border modes. -/
theorem render_code_start_label_display_width (lang : List Char)
    (width : Nat) (margin : List Char) (style : RenderStyle) (pp : Bool)
    (h1 : lang ≠ []) (h2 : lang ≠ "text".toList)
    (h3 : displayWidth lang + 2 ≤ width) :
    render_code_start (some lang) width margin style pp =
      [(if pp = true then margin ++ List.replicate width '▄'
        else margin ++ List.replicate width ' '),
       margin ++ '[' :: (lang ++ ']' ::
         List.replicate (width - (displayWidth lang + 2)) ' ')] ∧
    displayWidth ('[' :: (lang ++ ']' ::
      List.replicate (width - (displayWidth lang + 2)) ' ')) = width := by
  constructor
  · simp only [render_code_start]
    rw [if_pos ⟨h1, h2⟩]
  · rw [displayWidth_cons, displayWidth_append, displayWidth_cons,
      displayWidth_replicate_space]
    have hb1 : charWidth '[' = 1 := by decide
    have hb2 : charWidth ']' = 1 := by decide
    rw [hb1, hb2]
    omega

/-- Witness for C6 amended at language rust, width 40, pretty mode. -/
theorem render_code_start_label_display_width_witness :
    displayWidth ('[' :: ("rust".toList ++ ']' ::
      List.replicate (40 - (displayWidth "rust".toList + 2)) ' ')) = 40 :=
  (render_code_start_label_display_width ("rust".toList) 40 [] styleDefault
    true (by decide) (by decide) (by decide)).2

/-! ## C7: render_code_line always yields at least one row -/

/-- C7: `render_code_line` returns at least one terminal row for every
input, and an empty line yields exactly one background-filled row padded
to the configured width. -/
theorem render_code_line_nonempty (line : List Char) (width : Nat)
    (margin : List Char) (b : Bool) :
    render_code_line line width margin b ≠ [] ∧
    render_code_line [] width margin b =
      [margin ++ List.replicate width ' '] := by
  constructor
  · simp only [render_code_line]
    split
    · exact List.cons_ne_nil _ _
    · next h => exact h
  · simp [render_code_line, code_wrap, List.enum, List.enumFrom,
      displayWidth]

/-! ## C8: raw-source accumulation -/

/-- C8 counterexample: adding the empty line and then a after `start`
leaves the accumulator at a, not at the newline-joined concatenation of
the two lines (which would begin with a newline). -/
theorem add_raw_line_leading_empty_cex :
    (((CodeBlockState.new.start (some ("rust".toList))
        styleDefault).add_raw_line []).add_raw_line
          ("a".toList)).raw_code = ['a'] ∧
    ['a'] ≠ '\n' :: "a".toList :=
  ⟨by decide, by decide⟩

theorem joinNl_eq_tailNl (l : List Char) (rest : List (List Char)) :
    joinNl (l :: rest) = l ++ tailNl rest := by
  induction rest generalizing l with
  | nil => simp [joinNl, tailNl]
  | cons r rs ih =>
      have hstep : joinNl (l :: r :: rs) = l ++ '\n' :: joinNl (r :: rs) :=
        rfl
      rw [hstep, ih r]
      rfl

theorem foldl_add_raw_line_ne (ls : List (List Char)) :
    ∀ (s : CodeBlockState), s.raw_buffer ≠ [] →
      (List.foldl CodeBlockState.add_raw_line s ls).raw_buffer =
        s.raw_buffer ++ tailNl ls := by
  induction ls with
  | nil =>
      intro s _
      simp [tailNl]
  | cons l rest ih =>
      intro s h
      rw [List.foldl_cons]
      have hb : (s.add_raw_line l).raw_buffer = s.raw_buffer ++ '\n' :: l := by
        simp [CodeBlockState.add_raw_line, h]
      rw [ih _ (by rw [hb]; simp), hb, List.append_assoc]
      rfl

theorem foldl_add_raw_line_empty (ls : List (List Char)) :
    ∀ (s : CodeBlockState), s.raw_buffer = [] →
      (List.foldl CodeBlockState.add_raw_line s ls).raw_buffer =
        joinNl (ls.dropWhile List.isEmpty) := by
  induction ls with
  | nil =>
      intro s h
      simp [joinNl, h]
  | cons l rest ih =>
      intro s h
      rw [List.foldl_cons]
      by_cases hl : l = []
      · subst hl
        have hb : (s.add_raw_line []).raw_buffer = [] := by
          simp [CodeBlockState.add_raw_line, h]
        rw [ih _ hb, List.dropWhile_cons]
        simp
      · have hb : (s.add_raw_line l).raw_buffer = l := by
          simp [CodeBlockState.add_raw_line, h]
        rw [foldl_add_raw_line_ne rest _ (by rw [hb]; exact hl), hb,
          List.dropWhile_cons]
        rw [if_neg (by simpa using hl)]
        exact (joinNl_eq_tailNl l rest).symm

/-- C8 amended: `start` resets the accumulator; after it, adding lines
l1..ln makes `raw_code` the newline-joined concatenation of the lines
with any leading empty lines dropped (for a non-empty first line this is
exactly l1, newline, ..., newline, ln), independent of any highlighting
or wrapping; in particular the three-line example of the spec joins in
original order. -/
theorem raw_code_joins_added_lines (s : CodeBlockState)
    (lang : Option (List Char)) (style : RenderStyle)
    (ls : List (List Char)) :
    (s.start lang style).raw_code = [] ∧
    (List.foldl CodeBlockState.add_raw_line (s.start lang style)
        ls).raw_code = joinNl (ls.dropWhile List.isEmpty) ∧
    (List.foldl CodeBlockState.add_raw_line
        (CodeBlockState.new.start (some ("rust".toList)) styleDefault)
        ["fn main() \x7b".toList, "    body".toList, "\x7d".toList]).raw_code =
      ("fn main() \x7b\n    body\n\x7d").toList := by
  refine ⟨rfl, ?_, by decide⟩
  exact foldl_add_raw_line_empty ls _ rfl
